import Mathlib

/-!
Verification development for the ASO scripts repository
(`competitor_research.py`, `keyword_tracker.py`, `metadata_optimizer.py`,
`screenshot_generator.py`).

Python strings are modelled as lists of characters (`PyStr`); Python
floats as rationals; dictionaries returned by the analysis functions as
Lean structures.  Each definition mirrors the Python function of the same
name.
-/

/-- Python strings are modelled as lists of characters. -/
abbrev PyStr := List Char

namespace Aso

/-- ASCII model of `str.lower()` applied to one character
(Python's `str.lower`, restricted to ASCII). -/
def lowerChar (c : Char) : Char :=
  if 65 ≤ c.toNat ∧ c.toNat ≤ 90 then Char.ofNat (c.toNat + 32) else c

/-- `s.lower()` on the ASCII model. -/
def pyLower (s : PyStr) : PyStr := s.map lowerChar

/-- `s.replace(' ', '_')`: single-character replacement is a map. -/
def replaceSpace (s : PyStr) : PyStr := s.map (fun c => if c = ' ' then '_' else c)

/-- `arg.replace(' ', '_').lower()`, the default-output slug used by every
script's `main`. -/
def slug (s : PyStr) : PyStr := pyLower (replaceSpace s)

/-- `','.join(selected)` for a list of keyword strings. -/
def joinComma : List PyStr → PyStr
  | [] => []
  | [w] => w
  | w :: ws => w ++ ',' :: joinComma ws

theorem joinComma_cons_cons (w v : PyStr) (ws : List PyStr) :
    joinComma (w :: v :: ws) = w ++ ',' :: joinComma (v :: ws) := rfl

/-- Length of a comma-join after appending one more keyword. -/
theorem length_joinComma_append (sel : List PyStr) (kw : PyStr) :
    (joinComma (sel ++ [kw])).length =
      (joinComma sel).length + kw.length + (if sel.isEmpty then 0 else 1) := by
  induction sel with
  | nil => simp [joinComma]
  | cons w ws ih =>
    cases ws with
    | nil => simp [joinComma]; omega
    | cons v vs =>
      have h1 : joinComma ((w :: v :: vs) ++ [kw]) =
          w ++ ',' :: joinComma ((v :: vs) ++ [kw]) := rfl
      rw [h1, joinComma_cons_cons]
      simp only [List.length_append, List.length_cons] at *
      simp only [List.isEmpty_cons] at *
      omega

/-- Secondary sort key in `optimize_keywords_for_field`:
`-ord(k[0]) if k else 0`. -/
def negFirstOrd : PyStr → Int
  | [] => 0
  | c :: _ => -(c.toNat : Int)

/-- The order on keywords induced by Python's sort key
`(len(k), -ord(k[0]) if k else 0)`. -/
def kle (a b : PyStr) : Prop :=
  a.length < b.length ∨ (a.length = b.length ∧ negFirstOrd a ≤ negFirstOrd b)

instance : DecidableRel kle := fun a b => by
  unfold kle; infer_instance

instance : IsTotal PyStr kle := by
  constructor
  intro a b
  rcases Nat.lt_trichotomy a.length b.length with h | h | h
  · exact Or.inl (Or.inl h)
  · rcases le_total (negFirstOrd a) (negFirstOrd b) with h2 | h2
    · exact Or.inl (Or.inr ⟨h, h2⟩)
    · exact Or.inr (Or.inr ⟨h.symm, h2⟩)
  · exact Or.inr (Or.inl h)

instance : IsTrans PyStr kle := by
  constructor
  intro a b c hab hbc
  rcases hab with h1 | ⟨e1, k1⟩ <;> rcases hbc with h2 | ⟨e2, k2⟩
  · exact Or.inl (h1.trans h2)
  · exact Or.inl (e2 ▸ h1)
  · exact Or.inl (e1 ▸ h2)
  · exact Or.inr ⟨e1.trans e2, k1.trans k2⟩

/-- `sorted(keywords, key=lambda k: (len(k), -ord(k[0]) if k else 0))`,
modelled with a stable sort with respect to the same key order. -/
def sortKeywords (keywords : List PyStr) : List PyStr :=
  List.insertionSort kle keywords

/-- The selection loop of `optimize_keywords_for_field`: walk the sorted
keywords keeping a running length, append each keyword that fits
(counting the comma separator when the selection is nonempty) and stop at
the first keyword that would overflow `max_chars`. -/
def fillLoop (max_chars : Nat) : List PyStr → List PyStr → Nat → List PyStr
  | [], selected, _ => selected
  | kw :: rest, selected, curLen =>
    let sep := if selected.isEmpty then 0 else 1
    let newLen := curLen + kw.length + sep
    if newLen ≤ max_chars then fillLoop max_chars rest (selected ++ [kw]) newLen
    else selected

/-- `keyword_tracker.optimize_keywords_for_field`. -/
def optimize_keywords_for_field (keywords : List PyStr) (max_chars : Nat) : PyStr :=
  joinComma (fillLoop max_chars (sortKeywords keywords) [] 0)

theorem fillLoop_joinComma_le (max_chars : Nat) :
    ∀ (l sel : List PyStr) (cur : Nat),
      cur = (joinComma sel).length → cur ≤ max_chars →
      (joinComma (fillLoop max_chars l sel cur)).length ≤ max_chars := by
  intro l
  induction l with
  | nil => intro sel cur hc hle; simpa [fillLoop, ← hc] using hle
  | cons kw rest ih =>
    intro sel cur hc hle
    simp only [fillLoop]
    by_cases h : cur + kw.length + (if sel.isEmpty then 0 else 1) ≤ max_chars
    · rw [if_pos h]
      exact ih (sel ++ [kw]) _ (by rw [length_joinComma_append, hc]) h
    · rw [if_neg h]
      simpa [← hc] using hle

/-- ASCII model of Python's whitespace test used by `str.split()` and
`str.strip()`. -/
def isSpaceCh (c : Char) : Bool :=
  c == ' ' || c == '\t' || c == '\n' || c == '\r' || c == '\x0b' || c == '\x0c'

/-- Split a string into the maximal runs of characters satisfying `keep`,
discarding separators (the shape of `str.split()` and of `re.findall` over
a character class). -/
def splitRunsAux (keep : Char → Bool) : PyStr → PyStr → List PyStr
  | [], cur => if cur.isEmpty then [] else [cur.reverse]
  | c :: cs, cur =>
    if keep c then splitRunsAux keep cs (c :: cur)
    else if cur.isEmpty then splitRunsAux keep cs cur
    else cur.reverse :: splitRunsAux keep cs []

def splitRuns (keep : Char → Bool) (s : PyStr) : List PyStr := splitRunsAux keep s []

/-- `s.split()`: split on whitespace runs, dropping empty pieces. -/
def pySplitWS (s : PyStr) : List PyStr := splitRuns (fun c => !isSpaceCh c) s

/-- `s.strip()`: drop leading and trailing whitespace. -/
def pyStrip (s : PyStr) : PyStr :=
  ((s.dropWhile isSpaceCh).reverse.dropWhile isSpaceCh).reverse

/-- Result dictionary of `metadata_optimizer.optimize_keywords`. -/
structure KeywordFieldResult where
  keywords : PyStr
  length : Nat
  count : Nat
  strategy : String
  unused_keywords : List PyStr

/-- The `used_words` set of `optimize_keywords`: words of the lowercased
title and subtitle (modelled as a list, used only through membership). -/
def mkUsedWords (title subtitle : PyStr) : List PyStr :=
  pySplitWS (pyLower title) ++ pySplitWS (pyLower subtitle)

/-- The `available_keywords` filter of `optimize_keywords`: keep the
cleaned keyword unless it occurs as a substring of a used word or a used
word occurs as a substring of it. -/
def availableKeywords (keywords : List PyStr) (used : List PyStr) : List PyStr :=
  (keywords.map (fun kw => pyStrip (pyLower kw))).filter
    (fun k => !(used.any (fun u => decide (k <:+: u) || decide (u <:+: k))))

/-- The selection loop of `metadata_optimizer.optimize_keywords`: unlike
`optimize_keywords_for_field` it does not stop at the first keyword that
would overflow, it just skips it. -/
def mkSelectLoop : List PyStr → List PyStr → Nat → List PyStr
  | [], sel, _ => sel
  | kw :: rest, sel, cur =>
    let sep := if sel.isEmpty then 0 else 1
    if cur + kw.length + sep ≤ 100 then mkSelectLoop rest (sel ++ [kw]) (cur + kw.length + sep)
    else mkSelectLoop rest sel cur

/-- `metadata_optimizer.optimize_keywords`. -/
def optimize_keywords (keywords : List PyStr) (title subtitle : PyStr) : KeywordFieldResult :=
  let available := availableKeywords keywords (mkUsedWords title subtitle)
  let selected := mkSelectLoop available [] 0
  let ks := joinComma selected
  ⟨ks, ks.length, selected.length,
   "Maximize coverage without repeating title/subtitle words",
   (available.drop selected.length).take 10⟩

theorem mkSelectLoop_joinComma_le :
    ∀ (l sel : List PyStr) (cur : Nat),
      cur = (joinComma sel).length → cur ≤ 100 →
      (joinComma (mkSelectLoop l sel cur)).length ≤ 100 := by
  intro l
  induction l with
  | nil => intro sel cur hc hle; simpa [mkSelectLoop, ← hc] using hle
  | cons kw rest ih =>
    intro sel cur hc hle
    simp only [mkSelectLoop]
    by_cases h : cur + kw.length + (if sel.isEmpty then 0 else 1) ≤ 100
    · rw [if_pos h]
      exact ih (sel ++ [kw]) _ (by rw [length_joinComma_append, hc]) h
    · rw [if_neg h]
      exact ih sel cur hc hle

/-- Spec-side restatement of the greedy fill: walk the candidates in
order and append a candidate exactly when the comma-joined string that
would result still fits in `max_chars`, stopping at the first candidate
that would exceed the budget. -/
def specGreedyFill (max_chars : Nat) : List PyStr → List PyStr → List PyStr
  | [], sel => sel
  | kw :: rest, sel =>
    if (joinComma (sel ++ [kw])).length ≤ max_chars then
      specGreedyFill max_chars rest (sel ++ [kw])
    else sel

theorem fillLoop_eq_specGreedyFill (max_chars : Nat) :
    ∀ (l sel : List PyStr),
      fillLoop max_chars l sel (joinComma sel).length = specGreedyFill max_chars l sel := by
  intro l
  induction l with
  | nil => intro sel; rfl
  | cons kw rest ih =>
    intro sel
    show (if (joinComma sel).length + kw.length + (if sel.isEmpty then 0 else 1) ≤ max_chars
          then fillLoop max_chars rest (sel ++ [kw])
                 ((joinComma sel).length + kw.length + (if sel.isEmpty then 0 else 1))
          else sel)
        = specGreedyFill max_chars (kw :: rest) sel
    rw [show (joinComma sel).length + kw.length + (if sel.isEmpty then 0 else 1)
          = (joinComma (sel ++ [kw])).length from (length_joinComma_append sel kw).symm]
    unfold specGreedyFill
    by_cases h : (joinComma (sel ++ [kw])).length ≤ max_chars
    · rw [if_pos h, if_pos h]; exact ih (sel ++ [kw])
    · rw [if_neg h, if_neg h]

/-- C1: the optimized App Store keyword field never exceeds 100
characters, both for `keyword_tracker.optimize_keywords_for_field` at its
default `max_chars = 100` and for `metadata_optimizer.optimize_keywords`. -/
theorem keyword_field_within_100 :
    (∀ keywords : List PyStr, (optimize_keywords_for_field keywords 100).length ≤ 100) ∧
    (∀ (keywords : List PyStr) (title subtitle : PyStr),
      (optimize_keywords keywords title subtitle).keywords.length ≤ 100) := by
  constructor
  · intro keywords
    exact fillLoop_joinComma_le 100 (sortKeywords keywords) [] 0 rfl (by omega)
  · intro keywords title subtitle
    exact mkSelectLoop_joinComma_le _ [] 0 rfl (by omega)

/-- C6: `optimize_keywords_for_field` is a deterministic greedy fill
under the length ceiling: it walks the keywords in the fixed sorted order
(ascending length, a permutation of the input), appends each keyword
whose addition — separator included — keeps the joined string within
`max_chars`, stops at the first overflowing keyword, and returns exactly
the comma-join of the keywords selected this way. -/
theorem optimize_keywords_for_field_greedy (keywords : List PyStr) (max_chars : Nat) :
    optimize_keywords_for_field keywords max_chars
      = joinComma (specGreedyFill max_chars (sortKeywords keywords) []) ∧
    (sortKeywords keywords).Sorted (fun a b => a.length ≤ b.length) ∧
    (sortKeywords keywords).Perm keywords := by
  refine ⟨?_, ?_, ?_⟩
  · unfold optimize_keywords_for_field
    rw [show (0 : Nat) = (joinComma []).length from rfl, fillLoop_eq_specGreedyFill]
  · exact (List.sorted_insertionSort kle keywords).imp (fun h => by
      rcases h with h | ⟨h, _⟩
      · exact Nat.le_of_lt h
      · exact Nat.le_of_eq h)
  · exact List.perm_insertionSort kle keywords

/-- Python's `round` to an integer: round half to even (banker's
rounding), modelled on the rationals. -/
def bankersRound (x : ℚ) : ℤ :=
  if x - ⌊x⌋ < 1/2 then ⌊x⌋
  else if 1/2 < x - ⌊x⌋ then ⌊x⌋ + 1
  else if ⌊x⌋ % 2 = 0 then ⌊x⌋ else ⌊x⌋ + 1

/-- `round(x, 1)`. -/
def pyRound1 (x : ℚ) : ℚ := (bankersRound (x * 10) : ℚ) / 10

/-- `round(x, 2)`. -/
def pyRound2 (x : ℚ) : ℚ := (bankersRound (x * 100) : ℚ) / 100

theorem abs_bankersRound_sub_le (x : ℚ) : |(bankersRound x : ℚ) - x| ≤ 1/2 := by
  have h0 : (0:ℚ) ≤ x - ⌊x⌋ := by
    have := Int.floor_le x; linarith
  have h1 : x - ⌊x⌋ < 1 := by
    have := Int.lt_floor_add_one x; linarith
  unfold bankersRound
  by_cases hc1 : x - (⌊x⌋ : ℚ) < 1/2
  · rw [if_pos hc1, abs_le]; constructor <;> linarith
  · rw [if_neg hc1]
    by_cases hc2 : (1:ℚ)/2 < x - ⌊x⌋
    · rw [if_pos hc2]; push_cast; rw [abs_le]; constructor <;> linarith
    · rw [if_neg hc2]
      by_cases hp : ⌊x⌋ % 2 = 0
      · rw [if_pos hp, abs_le]; constructor <;> linarith
      · rw [if_neg hp]; push_cast; rw [abs_le]; constructor <;> linarith

theorem abs_pyRound1_sub_le (x : ℚ) : |pyRound1 x - x| ≤ 1/20 := by
  have h := abs_bankersRound_sub_le (x * 10)
  unfold pyRound1
  rw [show (bankersRound (x*10) : ℚ)/10 - x = ((bankersRound (x*10) : ℚ) - x*10)/10 by ring,
    abs_div, show |(10:ℚ)| = 10 by norm_num]
  linarith

/-- One app record returned by the iTunes search, with the fields the
analysis functions read (`app.get` with default `0`; a missing or
non-numeric field behaves as `0` through Python truthiness). -/
structure App where
  price : ℚ
  averageUserRating : ℚ
  userRatingCount : Nat
deriving DecidableEq

/-- The dictionary returned by `competitor_research.analyze_pricing`:
`bucket_free`, `bucket_low`, `bucket_mid`, `bucket_high` are the
`price_distribution` entries `'free'`, `'0.99-2.99'`, `'3.00-9.99'`,
`'10.00+'`. -/
structure PricingAnalysis where
  total_analyzed : Nat
  free_percentage : ℚ
  paid_percentage : ℚ
  average_price : ℚ
  bucket_free : Nat
  bucket_low : Nat
  bucket_mid : Nat
  bucket_high : Nat
deriving DecidableEq

/-- `competitor_research.analyze_pricing`. -/
def analyze_pricing (apps : List App) : PricingAnalysis :=
  let prices := apps.map App.price
  let free_apps := prices.countP (fun p => decide (p = 0))
  let paid_apps := prices.length - free_apps
  let avg_price : ℚ := if prices.isEmpty then 0 else prices.sum / prices.length
  ⟨prices.length,
   if prices.isEmpty then 0 else pyRound1 ((free_apps : ℚ) / prices.length * 100),
   if prices.isEmpty then 0 else pyRound1 ((paid_apps : ℚ) / prices.length * 100),
   pyRound2 avg_price,
   free_apps,
   prices.countP (fun p => decide (0 < p ∧ p ≤ 299/100)),
   prices.countP (fun p => decide (3 ≤ p ∧ p ≤ 999/100)),
   prices.countP (fun p => decide (10 ≤ p))⟩

theorem bucket_indicator (p : ℚ) (h0 : 0 ≤ p)
    (hg1 : ¬((299:ℚ)/100 < p ∧ p < 3)) (hg2 : ¬((999:ℚ)/100 < p ∧ p < 10)) :
    ((if p = 0 then 1 else 0) + (if 0 < p ∧ p ≤ 299/100 then 1 else 0)
      + (if 3 ≤ p ∧ p ≤ 999/100 then 1 else 0) + (if 10 ≤ p then 1 else 0) : Nat) = 1 := by
  have h299 : (299:ℚ)/100 < 3 := by norm_num
  have h999 : (999:ℚ)/100 < 10 := by norm_num
  rcases eq_or_lt_of_le h0 with h1 | h1
  · rw [if_pos h1.symm, if_neg (by rintro ⟨h2, -⟩; rw [← h1] at h2; exact lt_irrefl _ h2),
      if_neg (by rintro ⟨h2, -⟩; rw [← h1] at h2; linarith),
      if_neg (by intro h2; rw [← h1] at h2; linarith)]
  · by_cases h2 : p ≤ 299/100
    · rw [if_neg (by intro h; rw [h] at h1; exact lt_irrefl _ h1), if_pos ⟨h1, h2⟩,
        if_neg (by rintro ⟨h3, -⟩; linarith), if_neg (by intro h3; linarith)]
    · have h3 : 3 ≤ p := by
        by_contra h3
        exact hg1 ⟨lt_of_not_le h2, lt_of_not_le h3⟩
      by_cases h4 : p ≤ 999/100
      · rw [if_neg (by intro h; rw [h] at h3; linarith), if_neg (by rintro ⟨-, h5⟩; linarith),
          if_pos ⟨h3, h4⟩, if_neg (by intro h5; linarith)]
      · have h5 : 10 ≤ p := by
          by_contra h5
          exact hg2 ⟨lt_of_not_le h4, lt_of_not_le h5⟩
        rw [if_neg (by intro h; rw [h] at h5; linarith), if_neg (by rintro ⟨-, h6⟩; linarith),
          if_neg (by rintro ⟨-, h6⟩; linarith), if_pos h5]

theorem bucket_count_sum (l : List ℚ)
    (h : ∀ p ∈ l, 0 ≤ p ∧ ¬((299:ℚ)/100 < p ∧ p < 3) ∧ ¬((999:ℚ)/100 < p ∧ p < 10)) :
    l.countP (fun p => decide (p = 0)) + l.countP (fun p => decide (0 < p ∧ p ≤ 299/100))
      + l.countP (fun p => decide (3 ≤ p ∧ p ≤ 999/100)) + l.countP (fun p => decide (10 ≤ p))
      = l.length := by
  induction l with
  | nil => rfl
  | cons p ps ih =>
    have hp := h p (List.mem_cons_self p ps)
    have hind := bucket_indicator p hp.1 hp.2.1 hp.2.2
    have hps := ih (fun q hq => h q (List.mem_cons_of_mem p hq))
    simp only [List.countP_cons, List.length_cons, decide_eq_true_eq]
    simp only [decide_eq_true_eq] at hps
    omega

/-- C2 amended: for every list of apps whose prices are nonnegative and
avoid the two gaps the bucket bounds leave open — the open intervals
(2.99, 3.00) and (9.99, 10.00) — the four `price_distribution` counts of
`analyze_pricing` sum to `total_analyzed`. -/
theorem pricing_buckets_sum (apps : List App)
    (h : ∀ a ∈ apps, 0 ≤ a.price ∧ ¬((299:ℚ)/100 < a.price ∧ a.price < 3)
        ∧ ¬((999:ℚ)/100 < a.price ∧ a.price < 10)) :
    (analyze_pricing apps).bucket_free + (analyze_pricing apps).bucket_low
      + (analyze_pricing apps).bucket_mid + (analyze_pricing apps).bucket_high
      = (analyze_pricing apps).total_analyzed := by
  have := bucket_count_sum (apps.map App.price) (by
    intro p hp
    rcases List.mem_map.mp hp with ⟨a, ha, rfl⟩
    exact h a ha)
  simpa [analyze_pricing] using this

theorem pricing_buckets_sum_witness :
    (analyze_pricing [⟨0, 0, 0⟩, ⟨1, 0, 0⟩]).bucket_free
      + (analyze_pricing [⟨0, 0, 0⟩, ⟨1, 0, 0⟩]).bucket_low
      + (analyze_pricing [⟨0, 0, 0⟩, ⟨1, 0, 0⟩]).bucket_mid
      + (analyze_pricing [⟨0, 0, 0⟩, ⟨1, 0, 0⟩]).bucket_high
      = (analyze_pricing [⟨0, 0, 0⟩, ⟨1, 0, 0⟩]).total_analyzed :=
  pricing_buckets_sum [⟨0, 0, 0⟩, ⟨1, 0, 0⟩] (by intro a ha; fin_cases ha <;> norm_num)

/-- C2 counterexample: a single app priced 2.995 falls into none of the
four buckets, so the bucket counts sum to 0 while `total_analyzed` is 1. -/
theorem pricing_buckets_gap_counterexample :
    (analyze_pricing [⟨(2995:ℚ)/1000, 0, 0⟩]).bucket_free
        + (analyze_pricing [⟨(2995:ℚ)/1000, 0, 0⟩]).bucket_low
        + (analyze_pricing [⟨(2995:ℚ)/1000, 0, 0⟩]).bucket_mid
        + (analyze_pricing [⟨(2995:ℚ)/1000, 0, 0⟩]).bucket_high = 0 ∧
      (analyze_pricing [⟨(2995:ℚ)/1000, 0, 0⟩]).total_analyzed = 1 := by
  constructor <;> norm_num [analyze_pricing, List.countP_cons, List.countP_nil]

/-- C3: for every non-empty list of apps, the rounded `free_percentage`
and `paid_percentage` of `analyze_pricing` sum to 100 within rounding
error: each is rounded to one decimal place, and their sum differs from
100 by at most 0.1. -/
theorem pricing_percentages_sum (a : App) (as : List App) :
    |(analyze_pricing (a :: as)).free_percentage
      + (analyze_pricing (a :: as)).paid_percentage - 100| ≤ 1/10 := by
  have key : ∀ x y : ℚ, x + y = 100 → |pyRound1 x + pyRound1 y - 100| ≤ 1/10 := by
    intro x y hxy
    have h1 := abs_pyRound1_sub_le x
    have h2 := abs_pyRound1_sub_le y
    rw [abs_le] at h1 h2 ⊢
    constructor <;> linarith
  have hfn : (App.price a :: as.map App.price).countP (fun p => decide (p = 0))
      ≤ (App.price a :: as.map App.price).length := List.countP_le_length _
  have hn0 : ((App.price a :: as.map App.price).length : ℚ) ≠ 0 := by
    rw [List.length_cons]
    push_cast
    positivity
  simp only [analyze_pricing, List.map_cons, List.isEmpty_cons, Bool.false_eq_true, if_false]
  apply key
  rw [Nat.cast_sub hfn]
  field_simp
  ring

/-- The dictionary returned by `competitor_research.analyze_ratings` in
the non-error case. -/
structure RatingStats where
  average_rating : ℚ
  highest_rating : ℚ
  lowest_rating : ℚ
  total_reviews_analyzed : Nat
  apps_with_4_plus_stars : Nat
  apps_with_3_plus_stars : Nat
deriving DecidableEq

/-- Result of `analyze_ratings`: either the error dictionary
`{'error': 'No rating data available'}` or the statistics dictionary. -/
inductive RatingsResult where
  | err
  | ok (stats : RatingStats)
deriving DecidableEq

/-- `competitor_research.analyze_ratings`.  The comprehensions keep the
apps whose `averageUserRating` (respectively `userRatingCount`) is truthy,
i.e. nonzero. -/
def analyze_ratings (apps : List App) : RatingsResult :=
  let ratings := (apps.filter (fun x => !decide (x.averageUserRating = 0))).map App.averageUserRating
  let review_counts :=
    (apps.filter (fun x => !decide (x.userRatingCount = 0))).map App.userRatingCount
  match ratings with
  | [] => .err
  | r :: rs =>
    .ok ⟨pyRound2 ((r :: rs).sum / ((r :: rs).length : ℚ)),
         pyRound1 (rs.foldl max r),
         pyRound1 (rs.foldl min r),
         review_counts.sum,
         (r :: rs).countP (fun x => decide (4 ≤ x)),
         (r :: rs).countP (fun x => decide (3 ≤ x))⟩

/-- Projection of `analyze_ratings` onto the fields that are derived from
the ratings list (everything except `total_reviews_analyzed`). -/
def ratingOnlyStats : RatingsResult → Option (ℚ × ℚ × ℚ × Nat × Nat)
  | .err => none
  | .ok s => some (s.average_rating, s.highest_rating, s.lowest_rating,
                   s.apps_with_4_plus_stars, s.apps_with_3_plus_stars)

/-- Projection of `analyze_ratings` onto `total_reviews_analyzed`. -/
def totalReviews : RatingsResult → Option Nat
  | .err => none
  | .ok s => some s.total_reviews_analyzed

/-- C9 amended: `analyze_ratings` returns the error dictionary exactly
when no app has a nonzero `averageUserRating`; otherwise it returns the
statistics dictionary, whose rating-derived fields (average, highest,
lowest, star counts) depend only on the apps with nonzero ratings, while
`total_reviews_analyzed` sums `userRatingCount` over the apps with a
nonzero review count regardless of their rating. -/
theorem analyze_ratings_spec (apps : List App) :
    (analyze_ratings apps = .err ↔ ∀ a ∈ apps, a.averageUserRating = 0) ∧
    ratingOnlyStats (analyze_ratings apps)
      = ratingOnlyStats
          (analyze_ratings (apps.filter (fun x => !decide (x.averageUserRating = 0)))) ∧
    (analyze_ratings apps ≠ .err →
      totalReviews (analyze_ratings apps)
        = some (((apps.filter (fun x => !decide (x.userRatingCount = 0))).map
            App.userRatingCount).sum)) := by
  have hFF : (apps.filter (fun x => !decide (x.averageUserRating = 0))).filter
      (fun x => !decide (x.averageUserRating = 0))
      = apps.filter (fun x => !decide (x.averageUserRating = 0)) :=
    List.filter_eq_self.mpr (fun a ha => (List.mem_filter.mp ha).2)
  rcases hr : apps.filter (fun x => !decide (x.averageUserRating = 0)) with - | ⟨b, bs⟩
  · rw [hr] at hFF
    refine ⟨?_, ?_, ?_⟩
    · simp only [analyze_ratings, hr, List.map_nil]
      constructor
      · intro _ a ha
        have := List.filter_eq_nil_iff.mp hr a ha
        simpa using this
      · intro _; trivial
    · simp only [analyze_ratings, hr, hFF, List.map_nil]
    · simp only [analyze_ratings, hr, List.map_nil]
      intro h; exact absurd rfl h
  · rw [hr] at hFF
    have hb : b ∈ apps.filter (fun x => !decide (x.averageUserRating = 0)) := by
      rw [hr]; exact List.mem_cons_self b bs
    refine ⟨?_, ?_, ?_⟩
    · simp only [analyze_ratings, hr, List.map_cons]
      constructor
      · intro h; exact absurd h (by simp)
      · intro h
        have h1 : b.averageUserRating = 0 := h b (List.mem_filter.mp hb).1
        have h2 := (List.mem_filter.mp hb).2
        simp [h1] at h2
    · simp only [analyze_ratings, hr, hFF, List.map_cons]
      rfl
    · simp only [analyze_ratings, hr, List.map_cons]
      intro _; rfl

theorem analyze_ratings_spec_witness :
    totalReviews (analyze_ratings [(⟨0, 5, 3⟩ : App)])
      = some ((([(⟨0, 5, 3⟩ : App)].filter (fun x => !decide (x.userRatingCount = 0))).map
          App.userRatingCount).sum) :=
  (analyze_ratings_spec [(⟨0, 5, 3⟩ : App)]).2.2 (by
    intro h
    simp [analyze_ratings, List.filter] at h)

/-- C9 counterexample: with one app of rating 5 and zero reviews and one
app of rating 0 and 7 reviews, `total_reviews_analyzed` is 7 even though
the only app with a nonzero rating has no reviews, so the statistics are
not all computed over the apps with nonzero ratings. -/
theorem analyze_ratings_counterexample :
    totalReviews (analyze_ratings [(⟨0, 5, 0⟩ : App), (⟨0, 0, 7⟩ : App)]) = some 7 ∧
    totalReviews (analyze_ratings
        ([(⟨0, 5, 0⟩ : App), (⟨0, 0, 7⟩ : App)].filter
          (fun x => !decide (x.averageUserRating = 0)))) = some 0 := by
  constructor <;> rfl

/-- ASCII model of a regex word character (`\w`): letters, digits and
underscore. -/
def isWordChar (c : Char) : Bool :=
  decide ((65 ≤ c.toNat ∧ c.toNat ≤ 90) ∨ (97 ≤ c.toNat ∧ c.toNat ≤ 122)
    ∨ (48 ≤ c.toNat ∧ c.toNat ≤ 57) ∨ c = '_')

/-- ASCII letter, the character class `[a-zA-Z]`. -/
def isAsciiLetter (c : Char) : Bool :=
  decide ((65 ≤ c.toNat ∧ c.toNat ≤ 90) ∨ (97 ≤ c.toNat ∧ c.toNat ≤ 122))

/-- Lowercase ASCII letter. -/
def isLowerAscii (c : Char) : Bool := decide (97 ≤ c.toNat ∧ c.toNat ≤ 122)

/-- `re.findall(r'\b[a-zA-Z]{3,}\b', text)`: the maximal runs of word
characters that consist purely of ASCII letters and have length at least
3 (a maximal run containing a digit or an underscore has no word boundary
inside it, so it contributes no match). -/
def findWords (text : PyStr) : List PyStr :=
  (splitRuns isWordChar text).filter (fun w => decide (3 ≤ w.length) && w.all isAsciiLetter)

/-- The stop-word set of `extract_keywords_from_text`. -/
def stop_words : List PyStr :=
  (["the", "a", "an", "and", "or", "but", "in", "on", "at", "to", "for", "of", "with", "by",
    "is", "are", "was", "were", "be", "been", "have", "has", "had", "do", "does", "did",
    "will", "would", "could", "should", "may", "might", "must", "can", "this", "that",
    "these", "those", "i", "you", "he", "she", "it", "we", "they", "my", "your", "his",
    "her", "its", "our", "their", "app", "application", "ios", "iphone", "ipad"].map
    String.toList)

/-- `word_counts[word] = word_counts.get(word, 0) + 1` on an
insertion-ordered association list (the order of a Python dict). -/
def bumpCount (acc : List (PyStr × Nat)) (w : PyStr) : List (PyStr × Nat) :=
  if acc.any (fun p => decide (p.1 = w)) then
    acc.map (fun p => if p.1 = w then (p.1, p.2 + 1) else p)
  else acc ++ [(w, 1)]

/-- The filter-and-count loop of `extract_keywords_from_text`. -/
def countLoop : List PyStr → List (PyStr × Nat) → List (PyStr × Nat)
  | [], acc => acc
  | w :: ws, acc =>
    if w ∉ stop_words ∧ 3 < w.length then countLoop ws (bumpCount acc w)
    else countLoop ws acc

/-- Order by descending count, the key order of
`sorted(word_counts.items(), key=lambda x: x[1], reverse=True)`. -/
def countGE (a b : PyStr × Nat) : Prop := b.2 ≤ a.2

instance : DecidableRel countGE := fun a b => by unfold countGE; infer_instance

instance : IsTotal (PyStr × Nat) countGE := ⟨fun a b => le_total b.2 a.2⟩

instance : IsTrans (PyStr × Nat) countGE := ⟨fun _ _ _ h1 h2 => le_trans h2 h1⟩

/-- `competitor_research.extract_keywords_from_text`. -/
def extract_keywords_from_text (text : PyStr) : List (PyStr × Nat) :=
  (List.insertionSort countGE (countLoop (findWords (pyLower text)) [])).take 20

theorem lowerChar_not_upper (c : Char) :
    ¬(65 ≤ (lowerChar c).toNat ∧ (lowerChar c).toNat ≤ 90) := by
  unfold lowerChar
  by_cases h : 65 ≤ c.toNat ∧ c.toNat ≤ 90
  · rw [if_pos h]
    obtain ⟨h1, h2⟩ := h
    set n := c.toNat with hn
    interval_cases n <;> decide
  · rw [if_neg h]
    exact h

theorem isLowerAscii_of_mem_pyLower {t : PyStr} {c : Char}
    (hm : c ∈ pyLower t) (hl : isAsciiLetter c = true) : isLowerAscii c = true := by
  rcases List.mem_map.mp hm with ⟨c', -, rfl⟩
  have hup := lowerChar_not_upper c'
  simp only [isAsciiLetter, decide_eq_true_eq] at hl
  simp only [isLowerAscii, decide_eq_true_eq]
  tauto

theorem splitRunsAux_chars (keep : Char → Bool) :
    ∀ (cs cur : PyStr), ∀ w ∈ splitRunsAux keep cs cur, ∀ c ∈ w, c ∈ cs ∨ c ∈ cur := by
  intro cs
  induction cs with
  | nil =>
    intro cur w hw c hc
    simp only [splitRunsAux] at hw
    by_cases h : cur.isEmpty
    · rw [if_pos h] at hw; exact absurd hw (List.not_mem_nil w)
    · rw [if_neg h] at hw
      rcases List.mem_singleton.mp hw with rfl
      exact Or.inr (List.mem_reverse.mp hc)
  | cons c0 cs ih =>
    intro cur w hw c hc
    simp only [splitRunsAux] at hw
    by_cases h1 : keep c0
    · rw [if_pos h1] at hw
      rcases ih (c0 :: cur) w hw c hc with h | h
      · exact Or.inl (List.mem_cons_of_mem c0 h)
      · rcases List.mem_cons.mp h with rfl | h
        · exact Or.inl (List.mem_cons_self c cs)
        · exact Or.inr h
    · rw [if_neg h1] at hw
      by_cases h2 : cur.isEmpty
      · rw [if_pos h2] at hw
        rcases ih cur w hw c hc with h | h
        · exact Or.inl (List.mem_cons_of_mem c0 h)
        · exact Or.inr h
      · rw [if_neg h2] at hw
        rcases List.mem_cons.mp hw with rfl | hw
        · exact Or.inr (List.mem_reverse.mp hc)
        · rcases ih [] w hw c hc with h | h
          · exact Or.inl (List.mem_cons_of_mem c0 h)
          · exact absurd h (List.not_mem_nil c)

theorem findWords_lower (text : PyStr) :
    ∀ w ∈ findWords (pyLower text), w.all isLowerAscii = true := by
  intro w hw
  rcases List.mem_filter.mp hw with ⟨hmem, hcond⟩
  have hcond' : 3 ≤ w.length ∧ w.all isAsciiLetter = true := by simpa using hcond
  have hall := hcond'.2
  rw [List.all_eq_true] at hall ⊢
  intro c hc
  have hin : c ∈ pyLower text := by
    rcases splitRunsAux_chars isWordChar (pyLower text) [] w hmem c hc with h | h
    · exact h
    · exact absurd h (List.not_mem_nil c)
  exact isLowerAscii_of_mem_pyLower hin (hall c hc)

theorem bumpCount_keys (acc : List (PyStr × Nat)) (w : PyStr) :
    ∀ p ∈ bumpCount acc w, p.1 = w ∨ ∃ q ∈ acc, p.1 = q.1 := by
  intro p hp
  unfold bumpCount at hp
  by_cases h : acc.any (fun p => decide (p.1 = w))
  · rw [if_pos h] at hp
    rcases List.mem_map.mp hp with ⟨q, hq, rfl⟩
    by_cases h2 : q.1 = w
    · rw [if_pos h2]; exact Or.inl h2
    · rw [if_neg h2]; exact Or.inr ⟨q, hq, rfl⟩
  · rw [if_neg h] at hp
    rcases List.mem_append.mp hp with h2 | h2
    · exact Or.inr ⟨p, h2, rfl⟩
    · rcases List.mem_singleton.mp h2 with rfl
      exact Or.inl rfl

theorem countLoop_good (P : PyStr → Prop) :
    ∀ (ws : List PyStr) (acc : List (PyStr × Nat)),
      (∀ w ∈ ws, w ∉ stop_words → 3 < w.length → P w) →
      (∀ p ∈ acc, P p.1) →
      ∀ p ∈ countLoop ws acc, P p.1 := by
  intro ws
  induction ws with
  | nil => intro acc _ hacc p hp; exact hacc p hp
  | cons w ws ih =>
    intro acc hws hacc p hp
    simp only [countLoop] at hp
    by_cases h : w ∉ stop_words ∧ 3 < w.length
    · rw [if_pos h] at hp
      refine ih (bumpCount acc w) (fun v hv => hws v (List.mem_cons_of_mem w hv)) ?_ p hp
      intro q hq
      rcases bumpCount_keys acc w q hq with h2 | ⟨r, hr, h2⟩
      · rw [h2]; exact hws w (List.mem_cons_self w ws) h.1 h.2
      · rw [h2]; exact hacc r hr
    · rw [if_neg h] at hp
      exact ih acc (fun v hv => hws v (List.mem_cons_of_mem w hv)) hacc p hp

theorem countLoop_filtered :
    ∀ (ws : List PyStr) (acc : List (PyStr × Nat)),
      (∀ p ∈ acc, p.1 ∉ stop_words ∧ 3 < p.1.length) →
      ∀ p ∈ countLoop ws acc, p.1 ∉ stop_words ∧ 3 < p.1.length := by
  intro ws
  induction ws with
  | nil => intro acc hacc p hp; exact hacc p hp
  | cons w ws ih =>
    intro acc hacc p hp
    simp only [countLoop] at hp
    by_cases h : w ∉ stop_words ∧ 3 < w.length
    · rw [if_pos h] at hp
      refine ih (bumpCount acc w) ?_ p hp
      intro q hq
      rcases bumpCount_keys acc w q hq with h2 | ⟨r, hr, h2⟩
      · rw [h2]; exact h
      · rw [h2]; exact hacc r hr
    · rw [if_neg h] at hp
      exact ih acc hacc p hp

/-- C8: `extract_keywords_from_text` returns at most 20 pairs, sorted by
non-increasing count, where every word is all-lowercase, strictly longer
than 3 characters and not a stop word. -/
theorem extract_keywords_spec (text : PyStr) :
    (extract_keywords_from_text text).length ≤ 20 ∧
    List.Sorted countGE (extract_keywords_from_text text) ∧
    ∀ p ∈ extract_keywords_from_text text,
      p.1.all isLowerAscii = true ∧ 3 < p.1.length ∧ p.1 ∉ stop_words := by
  refine ⟨?_, ?_, ?_⟩
  · unfold extract_keywords_from_text
    rw [List.length_take]
    exact min_le_left _ _
  · unfold extract_keywords_from_text
    exact List.Pairwise.sublist (List.take_sublist _ _)
      (List.sorted_insertionSort countGE _)
  · intro p hp
    have hmem : p ∈ countLoop (findWords (pyLower text)) [] := by
      have h1 : p ∈ List.insertionSort countGE (countLoop (findWords (pyLower text)) []) :=
        (List.take_sublist _ _).mem hp
      exact (List.perm_insertionSort countGE _).mem_iff.mp h1
    have hlow : p.1.all isLowerAscii = true := by
      refine countLoop_good (fun w => w.all isLowerAscii = true) _ []
        (fun w hw _ _ => findWords_lower text w hw) (by intro q hq; cases hq) p hmem
    have hfil := countLoop_filtered (findWords (pyLower text)) []
      (by intro q hq; cases hq) p hmem
    exact ⟨hlow, hfil.2, hfil.1⟩

/-- ASCII model of `str.upper()` applied to one character. -/
def upperChar (c : Char) : Char :=
  if 97 ≤ c.toNat ∧ c.toNat ≤ 122 then Char.ofNat (c.toNat - 32) else c

/-- ASCII model of `str.title()`: the first letter of each run of
letters is uppercased, the following letters lowercased, other
characters left alone.  The Boolean argument records whether the
previous character was a letter. -/
def titleAux : PyStr → Bool → PyStr
  | [], _ => []
  | c :: cs, prevAlpha =>
    (if isAsciiLetter c then (if prevAlpha then lowerChar c else upperChar c) else c)
      :: titleAux cs (isAsciiLetter c)

/-- `s.title()` on the ASCII model. -/
def pyTitle (s : PyStr) : PyStr := titleAux s false

theorem length_titleAux : ∀ (s : PyStr) (b : Bool), (titleAux s b).length = s.length := by
  intro s
  induction s with
  | nil => intro b; rfl
  | cons c cs ih =>
    intro b
    simp only [titleAux, List.length_cons, ih]

theorem length_pyTitle (s : PyStr) : (pyTitle s).length = s.length :=
  length_titleAux s false

/-- The result dictionary of `metadata_optimizer.optimize_title`. -/
structure TitleResult where
  title : PyStr
  length : Nat
  strategy : String
  alternatives : List PyStr
deriving DecidableEq

/-- The title built by `optimize_title` in the branch for app names
shorter than 28 characters: the first keyword whose length fits in
`remaining = 30 - len(app_name) - 3` is appended after `" - "` in title
case; if no keyword fits, or the first fitting keyword is the falsy empty
string, the name is used alone. -/
def titleWithKeyword (app_name : PyStr) (keywords : List PyStr) : PyStr :=
  match keywords.find? (fun kw => decide (kw.length ≤ 30 - app_name.length - 3)) with
  | some kw => if kw.isEmpty then app_name else app_name ++ ' ' :: '-' :: ' ' :: pyTitle kw
  | none => app_name

/-- `metadata_optimizer.optimize_title`. -/
def optimize_title (app_name : PyStr) (keywords : List PyStr) : TitleResult :=
  if 28 ≤ app_name.length then
    ⟨app_name.take 30, (app_name.take 30).length, "App name only (already long)", []⟩
  else
    let title := titleWithKeyword app_name keywords
    let alternatives :=
      (((keywords.take 3).map (fun kw => app_name ++ ' ' :: '-' :: ' ' :: pyTitle kw)).filter
        (fun alt => decide (alt.length ≤ 30) && !decide (alt = title))).take 2
    ⟨title.take 30, (title.take 30).length, "App name + primary keyword", alternatives⟩

theorem titleWithKeyword_length_le (app_name : PyStr) (keywords : List PyStr)
    (h : app_name.length < 28) : (titleWithKeyword app_name keywords).length ≤ 30 := by
  unfold titleWithKeyword
  split
  next kw hf =>
    have hkw : kw.length ≤ 30 - app_name.length - 3 := by
      have := List.find?_some hf
      simpa using this
    by_cases he : kw.isEmpty
    · rw [if_pos he]; omega
    · rw [if_neg he]
      simp only [List.length_append, List.length_cons, length_pyTitle]
      omega
  next => omega

/-- C10: `optimize_title` always returns a title of at most 30
characters, the `length` field always equals the length of the returned
title, long app names (28 characters or more) are truncated to the first
30 characters, and for shorter names the assembled
`app_name - Keyword` title already fits, so the final `[:30]` slice
returns it unchanged. -/
theorem optimize_title_spec (app_name : PyStr) (keywords : List PyStr) :
    (optimize_title app_name keywords).title.length ≤ 30 ∧
    (optimize_title app_name keywords).length
      = (optimize_title app_name keywords).title.length ∧
    (28 ≤ app_name.length → (optimize_title app_name keywords).title = app_name.take 30) ∧
    (app_name.length < 28 →
      (optimize_title app_name keywords).title = titleWithKeyword app_name keywords ∧
      (titleWithKeyword app_name keywords).length ≤ 30) := by
  by_cases h : 28 ≤ app_name.length
  · rw [optimize_title, if_pos h]
    refine ⟨?_, rfl, fun _ => rfl, fun h2 => absurd h (not_le.mpr h2)⟩
    rw [List.length_take]
    exact min_le_left _ _
  · rw [optimize_title, if_neg h]
    have hlt : app_name.length < 28 := not_le.mp h
    have hle := titleWithKeyword_length_le app_name keywords hlt
    refine ⟨?_, rfl, fun h2 => absurd h2 h, fun _ => ⟨?_, hle⟩⟩
    · rw [List.length_take]
      exact min_le_left _ _
    · exact List.take_of_length_le hle

theorem optimize_title_spec_witness :
    (optimize_title ('a' :: List.replicate 27 'b') []).title
        = ('a' :: List.replicate 27 'b').take 30 ∧
    (optimize_title ['a', 'b'] [['c', 'd']]).title = titleWithKeyword ['a', 'b'] [['c', 'd']] ∧
    (titleWithKeyword ['a', 'b'] [['c', 'd']]).length ≤ 30 :=
  ⟨(optimize_title_spec ('a' :: List.replicate 27 'b') []).2.2.1 (by decide),
   ((optimize_title_spec ['a', 'b'] [['c', 'd']]).2.2.2 (by decide)).1,
   ((optimize_title_spec ['a', 'b'] [['c', 'd']]).2.2.2 (by decide)).2⟩

/-- Console messages printed by `competitor_research`, modelled as
events rather than formatted strings. -/
inductive ConsoleMsg where
  | researchingCompetitors (category : PyStr)
  | searchingAppStore
  | errorSearching (e : String)
  | noAppsFound
  | foundApps (n : Nat)
  | reportSaved (path : PyStr)
  | fullReportSaved (path : PyStr)
deriving DecidableEq

/-- Outcome of the single `urllib.request.urlopen` call as the script
sees it: the parsed `results` list of the JSON response, or the message
of whatever exception was raised. -/
abbrev SearchOutcome := Except String (List App)

/-- Observable behaviour of `competitor_research.search_app_store`: the
returned list, the HTTP GET it issues (the term and limit of the query
string) and its console output. -/
structure SearchResult where
  apps : List App
  gets : List (PyStr × Nat)
  console : List ConsoleMsg
deriving DecidableEq

/-- `competitor_research.search_app_store`: it always issues exactly one
GET; any exception is caught generically, reported to the console, and
turned into the empty list. -/
def search_app_store (term : PyStr) (limit : Nat) (oracle : SearchOutcome) : SearchResult :=
  match oracle with
  | .ok apps => ⟨apps, [(term, limit)], []⟩
  | .error e => ⟨[], [(term, limit)], [.errorSearching e]⟩

/-- Observable behaviour of a script `main`: the HTTP GETs issued and
the paths of the files written.  For `keyword_tracker`,
`metadata_optimizer` and `screenshot_generator` the report text and
console prints are pure formatting and are not modelled; only the
network activity (none) and the files written are. -/
structure ScriptRun where
  gets : List (PyStr × Nat)
  files : List PyStr
deriving DecidableEq

/-- Observable behaviour of `competitor_research.main`, whose console
output is claim-relevant. -/
structure CompetitorRun where
  gets : List (PyStr × Nat)
  console : List ConsoleMsg
  files : List PyStr
deriving DecidableEq

/-- `competitor_research.main`: search once, print the empty-result
message and return without writing when nothing comes back, otherwise
derive the output path (defaulted from the slugified category) and write
the report. -/
def competitor_main (category : PyStr) (output : Option PyStr) (limit : Nat)
    (oracle : SearchOutcome) : CompetitorRun :=
  let sr := search_app_store category limit oracle
  let pre := [ConsoleMsg.researchingCompetitors category, ConsoleMsg.searchingAppStore]
    ++ sr.console
  if sr.apps.isEmpty then
    ⟨sr.gets, pre ++ [.noAppsFound], []⟩
  else
    let output_file := output.getD ("competitor_analysis_".toList ++ slug category ++ ".md".toList)
    ⟨sr.gets,
     pre ++ [.foundApps sr.apps.length, .reportSaved output_file, .fullReportSaved output_file],
     [output_file]⟩

/-- `keyword_tracker.main`: no network request is made anywhere in the
script; one file is always written, at `--output` or at the default path
derived from the slugified app name. -/
def keyword_tracker_main (_category app_name : PyStr) (_terms : Option PyStr)
    (output : Option PyStr) : ScriptRun :=
  ⟨[], [output.getD ("keywords_".toList ++ slug app_name ++ ".md".toList)]⟩

/-- `metadata_optimizer.main`: no network request; one file always
written at `--output` or at the default path derived from the slugified
app name. -/
def metadata_main (app_name _category _version : PyStr)
    (_keywords _features : Option PyStr) (output : Option PyStr) : ScriptRun :=
  ⟨[], [output.getD ("metadata_".toList ++ slug app_name ++ ".md".toList)]⟩

/-- `screenshot_generator.main`: no network request; one file always
written at `--output` or at the default path derived from the slugified
app name. -/
def screenshot_main (app_name _features _category : PyStr) (output : Option PyStr) : ScriptRun :=
  ⟨[], [output.getD ("screenshots_".toList ++ slug app_name ++ ".md".toList)]⟩

/-- C4: when the single HTTP/JSON call raises any exception,
`search_app_store` reports the error to the console and returns the
empty list, and `main` then prints the empty-result message and returns
gracefully without writing any report file. -/
theorem search_error_graceful (category : PyStr) (output : Option PyStr) (limit : Nat)
    (e : String) :
    (search_app_store category limit (.error e)).apps = [] ∧
    (search_app_store category limit (.error e)).console = [.errorSearching e] ∧
    competitor_main category output limit (.error e)
      = ⟨[(category, limit)],
         [.researchingCompetitors category, .searchingAppStore, .errorSearching e, .noAppsFound],
         []⟩ :=
  ⟨rfl, rfl, rfl⟩

/-- C5 amended: `competitor_research.main` performs exactly one HTTP GET
per invocation; `keyword_tracker`, `metadata_optimizer` and
`screenshot_generator` perform none. -/
theorem one_get_competitor_only (category app_name version features_s : PyStr)
    (output terms keywords features : Option PyStr) (limit : Nat) (oracle : SearchOutcome) :
    (competitor_main category output limit oracle).gets.length = 1 ∧
    (keyword_tracker_main category app_name terms output).gets.length = 0 ∧
    (metadata_main app_name category version keywords features output).gets.length = 0 ∧
    (screenshot_main app_name features_s category output).gets.length = 0 := by
  refine ⟨?_, rfl, rfl, rfl⟩
  rcases oracle with e | apps
  · rfl
  · by_cases h : apps.isEmpty
    · simp [competitor_main, search_app_store, h]
    · simp [competitor_main, search_app_store, h]

/-- C5 counterexample: a `keyword_tracker` invocation performs zero HTTP
GETs, not exactly one. -/
theorem keyword_tracker_no_get_counterexample :
    (keyword_tracker_main "baby tracker".toList "BabyLog".toList none none).gets.length ≠ 1 := by
  decide

/-- C7 amended: with `--output` omitted, `keyword_tracker`,
`metadata_optimizer` and `screenshot_generator` each write exactly one
markdown file whose path is the script-specific prefix applied to the
slugified name argument (spaces replaced by underscores, lowercased)
followed by `.md`; `competitor_research` does the same with the
slugified category whenever the search returns a non-empty list, and
writes nothing otherwise. -/
theorem default_output_paths (category app_name version features_s : PyStr)
    (terms keywords features : Option PyStr) (limit : Nat) (a : App) (as : List App) :
    (competitor_main category none limit (.ok (a :: as))).files
      = ["competitor_analysis_".toList ++ slug category ++ ".md".toList] ∧
    (keyword_tracker_main category app_name terms none).files
      = ["keywords_".toList ++ slug app_name ++ ".md".toList] ∧
    (metadata_main app_name category version keywords features none).files
      = ["metadata_".toList ++ slug app_name ++ ".md".toList] ∧
    (screenshot_main app_name features_s category none).files
      = ["screenshots_".toList ++ slug app_name ++ ".md".toList] :=
  ⟨rfl, rfl, rfl, rfl⟩

/-- C7 counterexample: with `--output` omitted and the search failing,
`competitor_research.main` writes no file at all rather than exactly one
defaulted markdown file. -/
theorem competitor_no_file_counterexample :
    (competitor_main "baby tracker".toList none 50 (.error "timed out")).files = [] := rfl

end Aso
